import Mathlib

/-!
Verification of the stage-fusion / plan-optimization model of this repository's
dataset execution engine, together with the release-test state accessor.

The optimizer implementation itself is not part of the source excerpt (only its
tests are), so the stage plan, the fusion optimizer, the resource-request
equivalence and the execution lineage are modelled from the specification's
data model (§3) and component design (§4, §4.3, §4.4).  The release-test
accessor `Test.get_state` is embedded directly from
`src/release/ray_release/test.py`.
-/

set_option autoImplicit false

namespace RayData

/-- Modelled from the spec (§3, Stage.operator_kind): the closed variant of
logical operator kinds appearing in a stage plan. -/
inductive OperatorKind where
  | Read
  | Map
  | MapBatches
  | RandomShuffleMap
  | RandomShuffleReduce
  | Repartition
  | RandomizeBlockOrder
  | Write
  | Sort
  | Zip
  deriving DecidableEq

/-- Modelled from the spec (§3, Stage.compute_strategy): stages execute either
as independently scheduled tasks or on a pool of persistent actors.  The spec
states no fusion rule that depends on the pool parameters, so they are not
carried here. -/
inductive ComputeStrategy where
  | taskBased
  | actorPoolBased
  deriving DecidableEq

/-- A resource request maps resource keys to a requested amount; a key may be
present with an explicit `None` (absent amount), mirroring the Python
`remote_args` dictionaries such as `\x7b"num_cpus": None\x7d`. -/
def ResourceRequest : Type := List (String × Option ℚ)

instance : DecidableEq ResourceRequest := by
  unfold ResourceRequest
  infer_instance

/-- First-match association-list lookup, the embedding of a Python dict read. -/
def alistLookup {α : Type} : List (String × α) → String → Option α
  | [], _ => none
  | (k', v) :: rest, k => if k = k' then some v else alistLookup rest k

/-- The keys appearing in a resource request. -/
def resourceKeys (r : ResourceRequest) : List String :=
  r.map Prod.fst

/-- Modelled from the spec (§4.3): the effective value of a key, treating
absent-key, `None`, and `0`/`0.0` as the same "no requirement" sentinel
(represented here by `none`). -/
def effectiveValue (r : ResourceRequest) (k : String) : Option ℚ :=
  match alistLookup r k with
  | none => none
  | some none => none
  | some (some v) => if v = 0 then none else some v

/-- Modelled from the spec (§4.3): two resource requests are equivalent iff,
for every key appearing in either map, the effective values agree. -/
def resourcesEquivalent (r1 r2 : ResourceRequest) : Bool :=
  (resourceKeys r1 ++ resourceKeys r2).all fun k =>
    decide (effectiveValue r1 k = effectiveValue r2 k)

/-- Modelled from the spec (§3, Stage): one stage of a plan.  `ops` records the
chain of operator kinds folded into this stage (a single kind before any
fusion); `name` is the composite, `->`-joined display name. -/
structure Stage where
  name : String
  ops : List OperatorKind
  resource_request : ResourceRequest
  compute_strategy : ComputeStrategy
  deriving DecidableEq

/-- Modelled from the spec (§3, FusionRule): the optimizer's configuration
flags. -/
structure FusionRule where
  fuse_stages : Bool
  fuse_read_stages : Bool
  fuse_shuffle_stages : Bool
  reorder_stages : Bool
  deriving DecidableEq

/-- An atomic (unfused) stage running as plain tasks with no resource
requests beyond the defaults. -/
def taskStage (n : String) (k : OperatorKind) : Stage :=
  { name := n, ops := [k], resource_request := [], compute_strategy := .taskBased }

/-- The first operator kind of a stage's chain. -/
def Stage.headOp (s : Stage) : Option OperatorKind :=
  s.ops.head?

/-- The last operator kind of a stage's chain. -/
def Stage.lastOp (s : Stage) : Option OperatorKind :=
  s.ops.getLast?

/-- Modelled from the spec (§4.2 step 1): a pure block-order-randomizing
stage, the kind of stage the reordering pass may commute forward. -/
def isRandomizeStage (s : Stage) : Bool :=
  decide (s.ops = [.RandomizeBlockOrder])

/-- Modelled from the spec (§4.2 step 1): a stage that is independent of block
ordering (a per-row/per-batch transform), which a randomizing stage may be
commuted past. -/
def orderIndependent (s : Stage) : Bool :=
  s.ops.all fun k => decide (k = .Map) || decide (k = .MapBatches)

/-- Modelled from the spec (§4.2 step 1): the reordering pass.  Randomizing
stages are buffered and carried forward past directly-following
order-independent stages; any other stage (in particular `Write` and the
all-to-all stages) acts as a barrier in front of which the buffer is
flushed. -/
def reorderGo : List Stage → List Stage → List Stage
  | buf, [] => buf
  | buf, s :: rest =>
    if isRandomizeStage s then reorderGo (buf ++ [s]) rest
    else if orderIndependent s then s :: reorderGo buf rest
    else buf ++ s :: reorderGo [] rest

/-- Modelled from the spec (§4.2 step 1): reorder a stage sequence. -/
def reorderStages (l : List Stage) : List Stage :=
  reorderGo [] l

/-- Modelled from the spec (§4.2 step 2): whether an operator kind may appear
directly upstream of a fused pair boundary. -/
def upstreamFusable (a : OperatorKind) : Bool :=
  decide (a = .Read) || decide (a = .Map) || decide (a = .MapBatches) ||
    decide (a = .RandomizeBlockOrder)

/-- Modelled from the spec (§4.2 step 2): kind-level fusability of an adjacent
pair, with the upstream chain ending in `a` and the downstream chain starting
with `b`.  Crossing into a shuffle-map requires `fuse_shuffle_stages`;
shuffle-map and shuffle-reduce are a barrier and never merge with anything
downstream / upstream respectively. -/
def fusableKinds (flags : FusionRule) (a b : OperatorKind) : Bool :=
  match b with
  | .Map => upstreamFusable a
  | .MapBatches => upstreamFusable a
  | .Write => decide (a = .Read) || decide (a = .Map) || decide (a = .MapBatches)
  | .RandomizeBlockOrder => decide (a = .Read)
  | .RandomShuffleMap => flags.fuse_shuffle_stages && upstreamFusable a
  | _ => false

/-- Kind-level fusability lifted to optional kinds (empty chains never fuse). -/
def fusablePair (flags : FusionRule) : Option OperatorKind → Option OperatorKind → Bool
  | some a, some b => fusableKinds flags a b
  | _, _ => false

/-- Modelled from the spec (§4.2 step 2): whether the accumulated stage `a` may
absorb the next stage `s`: global enable, the read gate, kind-level
fusability, a compatible compute strategy, and equivalent resource
requests. -/
def canFuse (flags : FusionRule) (a s : Stage) : Bool :=
  flags.fuse_stages &&
    (if a.headOp = some .Read then flags.fuse_read_stages else true) &&
    fusablePair flags a.lastOp s.headOp &&
    decide (a.compute_strategy = s.compute_strategy) &&
    resourcesEquivalent a.resource_request s.resource_request

/-- Modelled from the spec (§4.2 step 2): merge two stages into one,
concatenating names with the `->` separator. -/
def fuseStages (a b : Stage) : Stage :=
  { name := a.name ++ "->" ++ b.name
    ops := a.ops ++ b.ops
    resource_request := b.resource_request
    compute_strategy := b.compute_strategy }

/-- Modelled from the spec (§4.2 step 2): the left-to-right fusion walk, with
`acc` the stage accumulated so far. -/
def fuseLoop (flags : FusionRule) (acc : Stage) : List Stage → List Stage
  | [] => [acc]
  | s :: rest =>
    if canFuse flags acc s then fuseLoop flags (fuseStages acc s) rest
    else acc :: fuseLoop flags s rest

/-- Modelled from the spec (§4.2 step 2): fuse a whole stage sequence. -/
def fuseStageList (flags : FusionRule) : List Stage → List Stage
  | [] => []
  | s :: rest => fuseLoop flags s rest

/-- Modelled from the spec (§4.2): the fusion optimizer — reorder when enabled,
then fuse left-to-right. -/
def optimize (flags : FusionRule) (l : List Stage) : List Stage :=
  fuseStageList flags (if flags.reorder_stages then reorderStages l else l)

/-- A fusion group: the first input stage of the group together with the
further input stages folded into it, in order. -/
def FusionGroup : Type := Stage × List Stage

instance : DecidableEq FusionGroup := by
  unfold FusionGroup
  infer_instance

/-- The input stages a fusion group consists of. -/
def groupMembers (g : FusionGroup) : List Stage :=
  g.1 :: g.2

/-- Render a fusion group as the single stage the optimizer emits for it. -/
def renderGroup (g : FusionGroup) : Stage :=
  g.2.foldl fuseStages g.1

/-- The fusion walk with explicit bookkeeping of which input stages are merged
into each emitted stage. -/
def fuseGroupsLoop (flags : FusionRule) (g : FusionGroup) : List Stage → List FusionGroup
  | [] => [g]
  | s :: rest =>
    if canFuse flags (renderGroup g) s then fuseGroupsLoop flags (g.1, g.2 ++ [s]) rest
    else g :: fuseGroupsLoop flags (s, []) rest

/-- Group a whole stage sequence. -/
def fuseGroupList (flags : FusionRule) : List Stage → List FusionGroup
  | [] => []
  | s :: rest => fuseGroupsLoop flags (s, []) rest

/-- The optimizer with group bookkeeping: `optimize` emits exactly the
rendered groups (proved below). -/
def optimizeGroups (flags : FusionRule) (l : List Stage) : List FusionGroup :=
  fuseGroupList flags (if flags.reorder_stages then reorderStages l else l)

/-- The invariant relating a randomizing stage to the stage emitted directly
after it: a pure randomize stage is never directly followed by an
order-independent stage once reordering has run (it would have been commuted
past it). -/
def randBarrier (a b : Stage) : Prop :=
  isRandomizeStage a = true → orderIndependent b = false

instance (a b : Stage) : Decidable (randBarrier a b) := by
  unfold randBarrier
  infer_instance

/-- A plan consisting of atomic (unfused) stages: each stage's chain is a
single operator kind. -/
def atomicStages (l : List Stage) : Prop :=
  ∀ s ∈ l, s.ops.length = 1

instance (l : List Stage) : Decidable (atomicStages l) := by
  unfold atomicStages
  infer_instance

/-- The shuffle-barrier invariant of an emitted stage: a shuffle-reduce is
always alone, and a shuffle-map is always the end of its stage's chain. -/
def shuffleBarrierInv (a : Stage) : Prop :=
  (OperatorKind.RandomShuffleReduce ∈ a.ops → a.ops = [.RandomShuffleReduce]) ∧
    (OperatorKind.RandomShuffleMap ∈ a.ops → a.ops.getLast? = some .RandomShuffleMap)

/-- All members of a fusion group share the compute strategy of its first
stage. -/
def sameComputeGroup (g : FusionGroup) : Prop :=
  ∀ x ∈ groupMembers g, x.compute_strategy = g.1.compute_strategy

/-- Modelled from the spec (§4.1): `require_preserve_order` — true when a
stage demanding order (a `sort` or `zip`) is present anywhere in the plan. -/
def requirePreserveOrder (stages : List Stage) : Bool :=
  stages.any fun s => s.ops.any fun k => decide (k = .Sort) || decide (k = .Zip)

/-! ### Execution lineage (fan-out re-execution), modelled from the spec §4.4 -/

/-- Modelled from the spec (§4.4): whether a plan's source is a lazy external
read or data supplied directly in memory (non-lazy). -/
inductive SourceKind where
  | lazyRead
  | inMemory
  deriving DecidableEq

/-- Modelled from the spec (§4.4): the lineage bookkeeping for a fan-out of
sibling materializations below one shared ancestor (source plus one shared
map stage).  `sourceBlocksRetained` holds for a non-lazy, directly-supplied
source; `snapshotBlocksRetained` tracks whether the ancestor's output blocks
are still available (they are consumed — moved — by a descendant
materialization). -/
structure LineageState where
  sourceBlocksRetained : Bool
  snapshotBlocksRetained : Bool
  sourceReadRuns : Nat
  sharedMapRuns : Nat
  deriving DecidableEq

/-- Modelled from the spec (§4.4): the state before any materialization. -/
def initLineage (src : SourceKind) : LineageState :=
  { sourceBlocksRetained := decide (src = .inMemory)
    snapshotBlocksRetained := false
    sourceReadRuns := 0
    sharedMapRuns := 0 }

/-- Modelled from the spec (§4.4): materializing one sibling branch.  If the
ancestor's output blocks are available they are consumed (moved); otherwise
the ancestor chain re-executes — the shared map always, and the source read
unless the source blocks are retained (non-lazy source). -/
def materializeBranch (st : LineageState) : LineageState :=
  if st.snapshotBlocksRetained then
    { st with snapshotBlocksRetained := false }
  else
    { st with
      sourceReadRuns := st.sourceReadRuns + (if st.sourceBlocksRetained then 0 else 1)
      sharedMapRuns := st.sharedMapRuns + 1
      snapshotBlocksRetained := false }

/-- Materialize `branches` sibling branches below the shared ancestor. -/
def runFanout (src : SourceKind) : Nat → LineageState
  | 0 => initLineage src
  | n + 1 => materializeBranch (runFanout src n)

end RayData

/-! ### Release-test state accessor, embedded from
`src/release/ray_release/test.py` -/

namespace RayRelease

/-- The `TestState` enum of `src/release/ray_release/test.py` (lines 27-34):
its only members are `JAILED`, `FAILING` and `PASSING`. -/
inductive TestState where
  | JAILED
  | FAILING
  | PASSING
  deriving DecidableEq

/-- The `value` of each `TestState` enum member. -/
def TestState.value : TestState → String
  | .JAILED => "jailed"
  | .FAILING => "failing"
  | .PASSING => "passing"

/-- Python attribute access `TestState.<attr>` on the enum class: `some` for
the three members, `none` (an `AttributeError`) for anything else. -/
def testStateMember (attr : String) : Option TestState :=
  if attr = "JAILED" then some .JAILED
  else if attr = "FAILING" then some .FAILING
  else if attr = "PASSING" then some .PASSING
  else none

/-- Python enum call `TestState(v)`: member lookup by value, `none` (a
`ValueError`) when no member has value `v`. -/
def testStateOfValue (v : String) : Option TestState :=
  if v = "jailed" then some .JAILED
  else if v = "failing" then some .FAILING
  else if v = "passing" then some .PASSING
  else none

/-- The exceptions `Test.get_state` can raise. -/
inductive PyExn where
  | attributeError
  | valueError
  deriving DecidableEq

/-- First-match association-list lookup, the embedding of a Python dict read. -/
def dictLookup : List (String × String) → String → Option String
  | [], _ => none
  | (k', v) :: rest, k => if k = k' then some v else dictLookup rest k

/-- Embeds `Test.get_state` (`src/release/ray_release/test.py`, lines 94-98):
`return TestState(self.get("state", TestState.GOOD.value))`.  Python
evaluates the arguments of `dict.get` before the call, so the default
expression `TestState.GOOD.value` is evaluated even when the `"state"` key is
present; the attribute access `TestState.GOOD` is resolved first. -/
def Test.get_state (self : List (String × String)) : Except PyExn TestState :=
  match testStateMember "GOOD" with
  | none => .error .attributeError
  | some good =>
    let v := (dictLookup self "state").getD good.value
    match testStateOfValue v with
    | none => .error .valueError
    | some st => .ok st

end RayRelease

/-! ## Lemmas -/

namespace RayData

theorem bool_eq_of_true_iff {a b : Bool} (h : a = true ↔ b = true) : a = b := by
  cases a <;> cases b <;> simp_all

/-! ### Resource-request equivalence -/

theorem alistLookup_eq_none_of_not_mem {α : Type} {l : List (String × α)} {k : String}
    (h : k ∉ l.map Prod.fst) : alistLookup l k = none := by
  induction l with
  | nil => rfl
  | cons p rest ih =>
    simp only [List.map_cons, List.mem_cons] at h
    push_neg at h
    simp only [alistLookup]
    rw [if_neg h.1]
    exact ih h.2

theorem effectiveValue_eq_none_of_not_mem {r : ResourceRequest} {k : String}
    (h : k ∉ resourceKeys r) : effectiveValue r k = none := by
  unfold effectiveValue
  rw [alistLookup_eq_none_of_not_mem h]

theorem resourcesEquivalent_iff (r1 r2 : ResourceRequest) :
    resourcesEquivalent r1 r2 = true ↔
      ∀ k, effectiveValue r1 k = effectiveValue r2 k := by
  unfold resourcesEquivalent
  rw [List.all_eq_true]
  constructor
  · intro h k
    by_cases hk : k ∈ resourceKeys r1 ++ resourceKeys r2
    · simpa using h k hk
    · rw [List.mem_append] at hk
      push_neg at hk
      rw [effectiveValue_eq_none_of_not_mem hk.1, effectiveValue_eq_none_of_not_mem hk.2]
  · intro h k _
    simp [h k]

theorem resourcesEquivalent_symm (r1 r2 : ResourceRequest) :
    resourcesEquivalent r1 r2 = resourcesEquivalent r2 r1 := by
  refine bool_eq_of_true_iff ?_
  rw [resourcesEquivalent_iff, resourcesEquivalent_iff]
  exact ⟨fun h k => (h k).symm, fun h k => (h k).symm⟩

theorem resourcesEquivalent_trans {r1 r2 r3 : ResourceRequest}
    (h12 : resourcesEquivalent r1 r2 = true) (h23 : resourcesEquivalent r2 r3 = true) :
    resourcesEquivalent r1 r3 = true := by
  rw [resourcesEquivalent_iff] at h12 h23 ⊢
  exact fun k => (h12 k).trans (h23 k)

theorem resourcesEquivalent_congr_right {r1 r2 r3 : ResourceRequest}
    (h : resourcesEquivalent r2 r3 = true) :
    resourcesEquivalent r1 r2 = resourcesEquivalent r1 r3 := by
  refine bool_eq_of_true_iff ?_
  rw [resourcesEquivalent_iff] at h
  rw [resourcesEquivalent_iff, resourcesEquivalent_iff]
  exact ⟨fun h12 k => (h12 k).trans (h k), fun h13 k => (h13 k).trans (h k).symm⟩

/-! ### Structure of fused stages -/

@[simp] theorem fuseStages_ops (a b : Stage) : (fuseStages a b).ops = a.ops ++ b.ops := rfl

@[simp] theorem fuseStages_resource (a b : Stage) :
    (fuseStages a b).resource_request = b.resource_request := rfl

@[simp] theorem fuseStages_compute (a b : Stage) :
    (fuseStages a b).compute_strategy = b.compute_strategy := rfl

theorem ops_ne_nil_of_headOp {s : Stage} {k : OperatorKind} (h : s.headOp = some k) :
    s.ops ≠ [] := by
  unfold Stage.headOp at h
  cases hs : s.ops with
  | nil => rw [hs] at h; simp at h
  | cons a t => simp

theorem ops_ne_nil_of_lastOp {s : Stage} {k : OperatorKind} (h : s.lastOp = some k) :
    s.ops ≠ [] := by
  unfold Stage.lastOp at h
  cases hs : s.ops with
  | nil => rw [hs] at h; simp at h
  | cons a t => simp

theorem fusablePair_spec {flags : FusionRule} {oa ob : Option OperatorKind}
    (h : fusablePair flags oa ob = true) :
    ∃ a b, oa = some a ∧ ob = some b ∧ fusableKinds flags a b = true := by
  cases oa with
  | none => simp [fusablePair] at h
  | some a =>
    cases ob with
    | none => simp [fusablePair] at h
    | some b => exact ⟨a, b, rfl, rfl, h⟩

theorem canFuse_spec {flags : FusionRule} {a s : Stage} (h : canFuse flags a s = true) :
    flags.fuse_stages = true ∧
      (a.headOp = some .Read → flags.fuse_read_stages = true) ∧
      fusablePair flags a.lastOp s.headOp = true ∧
      a.compute_strategy = s.compute_strategy ∧
      resourcesEquivalent a.resource_request s.resource_request = true := by
  unfold canFuse at h
  simp only [Bool.and_eq_true, decide_eq_true_eq] at h
  obtain ⟨⟨⟨⟨h1, h2⟩, h3⟩, h4⟩, h5⟩ := h
  refine ⟨h1, ?_, h3, h4, h5⟩
  intro hr
  rw [if_pos hr] at h2
  exact h2

theorem canFuse_ops_ne_nil {flags : FusionRule} {a s : Stage} (h : canFuse flags a s = true) :
    a.ops ≠ [] ∧ s.ops ≠ [] := by
  obtain ⟨-, -, h3, -, -⟩ := canFuse_spec h
  obtain ⟨x, y, hx, hy, -⟩ := fusablePair_spec h3
  exact ⟨ops_ne_nil_of_lastOp hx, ops_ne_nil_of_headOp hy⟩

theorem canFuse_congr {flags : FusionRule} {acc s H : Stage}
    (hh : H.headOp = s.headOp)
    (hc : H.compute_strategy = s.compute_strategy)
    (hr : resourcesEquivalent s.resource_request H.resource_request = true) :
    canFuse flags acc H = canFuse flags acc s := by
  unfold canFuse
  rw [hh, hc, resourcesEquivalent_congr_right hr]

theorem headOp_fuseStages {a : Stage} (b : Stage) (h : a.ops ≠ []) :
    (fuseStages a b).headOp = a.headOp := by
  unfold Stage.headOp
  rw [fuseStages_ops]
  exact List.head?_append_of_ne_nil _ h

/-! ### Structure of the fusion walk -/

theorem fuseLoop_ne_nil (flags : FusionRule) :
    ∀ (l : List Stage) (acc : Stage), fuseLoop flags acc l ≠ [] := by
  intro l
  induction l with
  | nil => intro acc; simp [fuseLoop]
  | cons s rest ih =>
    intro acc
    unfold fuseLoop
    by_cases h : canFuse flags acc s = true
    · rw [if_pos h]; exact ih _
    · rw [if_neg h]; simp

theorem fuseLoop_head (flags : FusionRule) :
    ∀ (l : List Stage) (acc : Stage),
      ∃ H tail ext, fuseLoop flags acc l = H :: tail ∧
        H.ops = acc.ops ++ ext ∧
        H.headOp = acc.headOp ∧
        H.compute_strategy = acc.compute_strategy ∧
        resourcesEquivalent acc.resource_request H.resource_request = true := by
  intro l
  induction l with
  | nil =>
    intro acc
    refine ⟨acc, [], [], rfl, by simp, rfl, rfl, ?_⟩
    rw [resourcesEquivalent_iff]
    intro k; rfl
  | cons s rest ih =>
    intro acc
    unfold fuseLoop
    by_cases h : canFuse flags acc s = true
    · rw [if_pos h]
      obtain ⟨hs, hcomp, hres⟩ :
          fusablePair flags acc.lastOp s.headOp = true ∧
            acc.compute_strategy = s.compute_strategy ∧
            resourcesEquivalent acc.resource_request s.resource_request = true := by
        obtain ⟨-, -, h3, h4, h5⟩ := canFuse_spec h
        exact ⟨h3, h4, h5⟩
      have hne := (canFuse_ops_ne_nil h).1
      obtain ⟨H, tail, ext, heq, hops, hhead, hcompute, hreq⟩ := ih (fuseStages acc s)
      refine ⟨H, tail, s.ops ++ ext, heq, ?_, ?_, ?_, ?_⟩
      · rw [hops, fuseStages_ops, List.append_assoc]
      · rw [hhead, headOp_fuseStages _ hne]
      · rw [hcompute, fuseStages_compute, hcomp]
      · rw [fuseStages_resource] at hreq
        exact resourcesEquivalent_trans hres hreq
    · rw [if_neg h]
      refine ⟨acc, fuseLoop flags s rest, [], rfl, by simp, rfl, rfl, ?_⟩
      rw [resourcesEquivalent_iff]
      intro k; rfl

theorem fuseStageList_fuseLoop (flags : FusionRule) :
    ∀ (l : List Stage) (acc : Stage),
      fuseStageList flags (fuseLoop flags acc l) = fuseLoop flags acc l := by
  intro l
  induction l with
  | nil => intro acc; rfl
  | cons s rest ih =>
    intro acc
    by_cases h : canFuse flags acc s = true
    · rw [fuseLoop, if_pos h]
      exact ih _
    · rw [fuseLoop, if_neg h]
      obtain ⟨H, tail, ext, heq, hops, hhead, hcompute, hreq⟩ := fuseLoop_head flags rest s
      have hcan : canFuse flags acc H = false := by
        rw [canFuse_congr hhead hcompute hreq]
        exact Bool.not_eq_true _ ▸ (by simpa using h)
      have ihs := ih s
      rw [heq] at ihs ⊢
      rw [fuseStageList] at ihs
      rw [fuseStageList, fuseLoop, if_neg (by simp [hcan])]
      rw [ihs]

/-! ### The reordering pass and its interaction with fusion -/

theorem orderIndependent_eq_false_of_rand {a : Stage} (h : isRandomizeStage a = true) :
    orderIndependent a = false := by
  unfold isRandomizeStage at h
  rw [decide_eq_true_eq] at h
  unfold orderIndependent
  rw [h]
  rfl

theorem chain_randBarrier_of_allRand {buf : List Stage}
    (h : ∀ r ∈ buf, isRandomizeStage r = true) : List.Chain' randBarrier buf := by
  induction buf with
  | nil => simp
  | cons a t ih =>
    rw [List.chain'_cons']
    refine ⟨?_, ih fun r hr => h r (List.mem_cons_of_mem _ hr)⟩
    intro y hy _
    have hy' : y ∈ t := by
      cases ht : t.head? with
      | none => rw [ht] at hy; simp at hy
      | some z =>
        rw [ht] at hy
        simp at hy
        subst hy
        exact List.mem_of_mem_head? ht
    exact orderIndependent_eq_false_of_rand (h y (List.mem_cons_of_mem _ hy'))

theorem reorderGo_chain :
    ∀ (l buf : List Stage), (∀ r ∈ buf, isRandomizeStage r = true) →
      List.Chain' randBarrier (reorderGo buf l) := by
  intro l
  induction l with
  | nil =>
    intro buf h
    exact chain_randBarrier_of_allRand h
  | cons s rest ih =>
    intro buf h
    unfold reorderGo
    by_cases h1 : isRandomizeStage s = true
    · rw [if_pos h1]
      apply ih
      intro r hr
      rcases List.mem_append.mp hr with h' | h'
      · exact h _ h'
      · simp at h'; subst h'; exact h1
    · by_cases h2 : orderIndependent s = true
      · rw [if_neg h1, if_pos h2]
        rw [List.chain'_cons']
        refine ⟨?_, ih buf h⟩
        intro y _ hrand
        exact absurd hrand (by simp [h1])
      · rw [if_neg h1, if_neg h2]
        rw [List.chain'_append]
        refine ⟨chain_randBarrier_of_allRand h, ?_, ?_⟩
        · rw [List.chain'_cons']
          refine ⟨?_, ih [] (by simp)⟩
          intro y _ hrand
          exact absurd hrand (by simp [h1])
        · intro x _ y hy
          simp at hy
          subst hy
          intro _
          revert h2
          cases orderIndependent s <;> simp

theorem exists_getLast?_of_ne_nil {α : Type} {l : List α} (h : l ≠ []) :
    ∃ a, l.getLast? = some a := by
  induction l with
  | nil => exact absurd rfl h
  | cons x t ih =>
    cases t with
    | nil => exact ⟨x, rfl⟩
    | cons y t' =>
      obtain ⟨a, ha⟩ := ih (by simp)
      exact ⟨a, by rw [List.getLast?_cons_cons]; exact ha⟩

theorem mem_of_getLast?_eq {α : Type} {l : List α} {a : α} (h : l.getLast? = some a) :
    a ∈ l := by
  induction l with
  | nil => simp at h
  | cons x t ih =>
    cases t with
    | nil =>
      simp at h
      simp [h]
    | cons y t' =>
      rw [List.getLast?_cons_cons] at h
      exact List.mem_cons_of_mem _ (ih h)

theorem reorderGo_fixed :
    ∀ (l buf : List Stage), (∀ r ∈ buf, isRandomizeStage r = true) →
      List.Chain' randBarrier (buf ++ l) → reorderGo buf l = buf ++ l := by
  intro l
  induction l with
  | nil =>
    intro buf _ _
    simp [reorderGo]
  | cons s rest ih =>
    intro buf hbuf hchain
    unfold reorderGo
    by_cases h1 : isRandomizeStage s = true
    · rw [if_pos h1]
      have harg : ∀ r ∈ buf ++ [s], isRandomizeStage r = true := by
        intro r hr
        rcases List.mem_append.mp hr with h' | h'
        · exact hbuf _ h'
        · simp at h'; subst h'; exact h1
      have := ih (buf ++ [s]) harg (by rw [List.append_assoc]; simpa using hchain)
      rw [this, List.append_assoc]
      simp
    · by_cases h2 : orderIndependent s = true
      · rw [if_neg h1, if_pos h2]
        have hbufnil : buf = [] := by
          by_contra hne
          obtain ⟨lb, hlb⟩ := exists_getLast?_of_ne_nil hne
          rw [List.chain'_append] at hchain
          have hrb : randBarrier lb s := hchain.2.2 lb hlb s rfl
          have := hrb (hbuf lb (mem_of_getLast?_eq hlb))
          rw [h2] at this
          simp at this
        subst hbufnil
        simp only [List.nil_append] at hchain ⊢
        rw [ih [] (by simp) (by simpa using hchain.tail)]
        simp
      · rw [if_neg h1, if_neg h2]
        have hrest : List.Chain' randBarrier rest := by
          rw [List.chain'_append] at hchain
          exact hchain.2.1.tail
        rw [ih [] (by simp) (by simpa using hrest)]
        simp

theorem fuseLoop_chain (flags : FusionRule) :
    ∀ (l : List Stage) (acc : Stage), List.Chain' randBarrier (acc :: l) →
      List.Chain' randBarrier (fuseLoop flags acc l) := by
  intro l
  induction l with
  | nil =>
    intro acc _
    simp [fuseLoop]
  | cons s rest ih =>
    intro acc hchain
    rw [List.chain'_cons] at hchain
    unfold fuseLoop
    by_cases h : canFuse flags acc s = true
    · rw [if_pos h]
      apply ih
      rw [List.chain'_cons']
      refine ⟨?_, by simpa using hchain.2.tail⟩
      intro y _ hrand
      exfalso
      unfold isRandomizeStage at hrand
      rw [decide_eq_true_eq] at hrand
      rw [fuseStages_ops] at hrand
      obtain ⟨hna, hns⟩ := canFuse_ops_ne_nil h
      have hlen : (acc.ops ++ s.ops).length = 1 := by rw [hrand]; rfl
      rw [List.length_append] at hlen
      have ha : 0 < acc.ops.length := List.length_pos.mpr hna
      have hb : 0 < s.ops.length := List.length_pos.mpr hns
      omega
    · rw [if_neg h]
      rw [List.chain'_cons']
      refine ⟨?_, ih s hchain.2⟩
      intro y hy hrand
      obtain ⟨H, tail, ext, heq, hops, -, -, -⟩ := fuseLoop_head flags rest s
      rw [heq] at hy
      simp at hy
      subst hy
      have hs : orderIndependent s = false := hchain.1 hrand
      unfold orderIndependent at hs ⊢
      rw [hops, List.all_append, hs]
      rfl

theorem mem_reorderGo {x : Stage} :
    ∀ (l buf : List Stage), x ∈ reorderGo buf l → x ∈ buf ∨ x ∈ l := by
  intro l
  induction l with
  | nil =>
    intro buf h
    left
    simpa [reorderGo] using h
  | cons s rest ih =>
    intro buf h
    unfold reorderGo at h
    by_cases h1 : isRandomizeStage s = true
    · rw [if_pos h1] at h
      rcases ih _ h with h' | h'
      · rcases List.mem_append.mp h' with h'' | h''
        · left; exact h''
        · right; simp at h''; simp [h'']
      · right; simp [h']
    · by_cases h2 : orderIndependent s = true
      · rw [if_neg h1, if_pos h2] at h
        rcases List.mem_cons.mp h with h' | h'
        · right; simp [h']
        · rcases ih _ h' with h'' | h''
          · left; exact h''
          · right; simp [h'']
      · rw [if_neg h1, if_neg h2] at h
        rcases List.mem_append.mp h with h' | h'
        · left; exact h'
        · rcases List.mem_cons.mp h' with h'' | h''
          · right; simp [h'']
          · rcases ih _ h'' with h3 | h3
            · simp at h3
            · right; simp [h3]

/-! ### The final stage of an optimized plan -/

theorem getLast?_cons_of_getLast? {α : Type} {l : List α} {a : α} (x : α)
    (h : l.getLast? = some a) : (x :: l).getLast? = some a := by
  cases l with
  | nil => simp at h
  | cons b t => rw [List.getLast?_cons_cons]; exact h

theorem getLast?_append_some {α : Type} (l1 : List α) {l2 : List α} {a : α}
    (h : l2.getLast? = some a) : (l1 ++ l2).getLast? = some a := by
  induction l1 with
  | nil => simpa
  | cons x t ih => rw [List.cons_append]; exact getLast?_cons_of_getLast? x ih

theorem eq_append_of_getLast? {α : Type} :
    ∀ {l : List α} {a : α}, l.getLast? = some a → ∃ t, l = t ++ [a] := by
  intro l
  induction l with
  | nil => intro a h; simp at h
  | cons x t ih =>
    intro a h
    cases ht : t with
    | nil =>
      subst ht
      simp at h
      subst h
      exact ⟨[], rfl⟩
    | cons y t' =>
      subst ht
      rw [List.getLast?_cons_cons] at h
      obtain ⟨u, hu⟩ := ih h
      exact ⟨x :: u, by rw [hu]; rfl⟩

theorem reorderGo_getLast_barrier {w : Stage} (hw1 : isRandomizeStage w = false)
    (hw2 : orderIndependent w = false) :
    ∀ (xs buf : List Stage), (reorderGo buf (xs ++ [w])).getLast? = some w := by
  intro xs
  induction xs with
  | nil =>
    intro buf
    rw [List.nil_append]
    unfold reorderGo
    rw [if_neg (by simp [hw1]), if_neg (by simp [hw2])]
    show (buf ++ w :: reorderGo [] []).getLast? = some w
    apply getLast?_append_some
    simp [reorderGo]
  | cons x xs' ih =>
    intro buf
    rw [List.cons_append]
    unfold reorderGo
    by_cases h1 : isRandomizeStage x = true
    · rw [if_pos h1]
      exact ih _
    · by_cases h2 : orderIndependent x = true
      · rw [if_neg h1, if_pos h2]
        exact getLast?_cons_of_getLast? x (ih buf)
      · rw [if_neg h1, if_neg h2]
        exact getLast?_append_some _ (getLast?_cons_of_getLast? x (ih []))

theorem fuseLoop_last_write (flags : FusionRule) {w : Stage} (hw : w.ops = [.Write]) :
    ∀ (l : List Stage) (acc : Stage),
      ∃ A, (fuseLoop flags acc (l ++ [w])).getLast? = some A ∧
        A.ops.getLast? = some .Write := by
  intro l
  induction l with
  | nil =>
    intro acc
    rw [List.nil_append]
    unfold fuseLoop
    by_cases h : canFuse flags acc w = true
    · rw [if_pos h]
      refine ⟨fuseStages acc w, by simp [fuseLoop], ?_⟩
      rw [fuseStages_ops, hw]
      exact List.getLast?_concat _
    · rw [if_neg h]
      refine ⟨w, by simp [fuseLoop], ?_⟩
      rw [hw]
      rfl
  | cons s t ih =>
    intro acc
    rw [List.cons_append]
    unfold fuseLoop
    by_cases h : canFuse flags acc s = true
    · rw [if_pos h]
      exact ih _
    · rw [if_neg h]
      obtain ⟨A, hA, hAops⟩ := ih s
      exact ⟨A, getLast?_cons_of_getLast? acc hA, hAops⟩

/-! ### The shuffle barrier invariant -/

theorem upstreamFusable_spec {a : OperatorKind} (h : upstreamFusable a = true) :
    a ≠ .RandomShuffleMap ∧ a ≠ .RandomShuffleReduce := by
  constructor <;> rintro rfl <;> exact absurd h (by decide)

theorem fusableKinds_ne_reduce {flags : FusionRule} {a b : OperatorKind}
    (h : fusableKinds flags a b = true) : b ≠ .RandomShuffleReduce := by
  rintro rfl
  simp [fusableKinds] at h

theorem fusableKinds_upstream {flags : FusionRule} {a b : OperatorKind}
    (h : fusableKinds flags a b = true) : upstreamFusable a = true := by
  cases b with
  | Map => exact h
  | MapBatches => exact h
  | Write =>
    simp only [fusableKinds, Bool.or_eq_true, decide_eq_true_eq] at h
    simp only [upstreamFusable, Bool.or_eq_true, decide_eq_true_eq]
    tauto
  | RandomizeBlockOrder =>
    simp only [fusableKinds, decide_eq_true_eq] at h
    subst h
    decide
  | RandomShuffleMap => exact ((Bool.and_eq_true _ _).mp h).2
  | Read => simp [fusableKinds] at h
  | RandomShuffleReduce => simp [fusableKinds] at h
  | Repartition => simp [fusableKinds] at h
  | «Sort» => simp [fusableKinds] at h
  | Zip => simp [fusableKinds] at h

theorem ops_singleton_of_length {s : Stage} (h : s.ops.length = 1) : ∃ k, s.ops = [k] := by
  cases hs : s.ops with
  | nil => rw [hs] at h; simp at h
  | cons k t =>
    cases ht : t with
    | nil => exact ⟨k, rfl⟩
    | cons k' t' =>
      rw [hs, ht] at h
      simp at h

theorem shuffleBarrierInv_atomic {s : Stage} {k : OperatorKind} (h : s.ops = [k]) :
    shuffleBarrierInv s := by
  constructor
  · intro hm
    rw [h] at hm ⊢
    simp at hm
    subst hm
    rfl
  · intro hm
    rw [h] at hm ⊢
    simp at hm
    subst hm
    rfl

theorem shuffleBarrierInv_fuse {flags : FusionRule} {acc s : Stage} {k : OperatorKind}
    (hacc : shuffleBarrierInv acc) (hs : s.ops = [k]) (h : canFuse flags acc s = true) :
    shuffleBarrierInv (fuseStages acc s) := by
  obtain ⟨-, -, h3, -, -⟩ := canFuse_spec h
  obtain ⟨x, y, hx, hy, hk⟩ := fusablePair_spec h3
  have hyk : y = k := by
    unfold Stage.headOp at hy
    rw [hs] at hy
    simp at hy
    exact hy.symm
  rw [hyk] at hk
  have hup := upstreamFusable_spec (fusableKinds_upstream hk)
  have hkne := fusableKinds_ne_reduce hk
  constructor
  · intro hm
    exfalso
    rw [fuseStages_ops, hs, List.mem_append] at hm
    rcases hm with hm | hm
    · have hops := hacc.1 hm
      have hx' : x = .RandomShuffleReduce := by
        unfold Stage.lastOp at hx
        rw [hops] at hx
        simp at hx
        exact hx.symm
      exact hup.2 hx'
    · simp at hm
      exact hkne hm.symm
  · intro hm
    rw [fuseStages_ops, hs] at hm ⊢
    rw [List.mem_append] at hm
    by_cases hksm : k = .RandomShuffleMap
    · subst hksm
      exact List.getLast?_concat _
    · rcases hm with hm | hm
      · exfalso
        have hlast := hacc.2 hm
        have hx' : x = .RandomShuffleMap := by
          unfold Stage.lastOp at hx
          rw [hlast] at hx
          simp at hx
          exact hx.symm
        exact hup.1 hx'
      · exfalso
        simp at hm
        exact hksm hm.symm

theorem fuseLoop_shuffleInv (flags : FusionRule) :
    ∀ (l : List Stage) (acc : Stage), shuffleBarrierInv acc → atomicStages l →
      ∀ A ∈ fuseLoop flags acc l, shuffleBarrierInv A := by
  intro l
  induction l with
  | nil =>
    intro acc hacc _ A hA
    simp [fuseLoop] at hA
    subst hA
    exact hacc
  | cons s t ih =>
    intro acc hacc hatomic A hA
    have hs : ∃ k, s.ops = [k] := ops_singleton_of_length (hatomic s (by simp))
    have ht : atomicStages t := fun x hx => hatomic x (List.mem_cons_of_mem _ hx)
    unfold fuseLoop at hA
    by_cases h : canFuse flags acc s = true
    · rw [if_pos h] at hA
      obtain ⟨k, hk⟩ := hs
      exact ih _ (shuffleBarrierInv_fuse hacc hk h) ht A hA
    · rw [if_neg h] at hA
      rcases List.mem_cons.mp hA with hA | hA
      · subst hA
        exact hacc
      · obtain ⟨k, hk⟩ := hs
        exact ih s (shuffleBarrierInv_atomic hk) ht A hA

theorem atomicStages_reorderOpt {flags : FusionRule} {l : List Stage}
    (hl : atomicStages l) :
    atomicStages (if flags.reorder_stages then reorderStages l else l) := by
  by_cases hr : flags.reorder_stages = true
  · rw [if_pos hr]
    intro s hsL
    rcases mem_reorderGo l [] hsL with h' | h'
    · simp at h'
    · exact hl s h'
  · rw [if_neg hr]
    exact hl

theorem optimize_shuffleInv (flags : FusionRule) (l : List Stage) (hl : atomicStages l) :
    ∀ A ∈ optimize flags l, shuffleBarrierInv A := by
  intro A hA
  unfold optimize at hA
  have hatomic := @atomicStages_reorderOpt flags l hl
  cases hc : (if flags.reorder_stages then reorderStages l else l) with
  | nil =>
    rw [hc] at hA
    simp [fuseStageList] at hA
  | cons s rest =>
    rw [hc] at hA hatomic
    simp only [fuseStageList] at hA
    obtain ⟨k, hk⟩ := ops_singleton_of_length (hatomic s (by simp))
    exact fuseLoop_shuffleInv flags rest s (shuffleBarrierInv_atomic hk)
      (fun x hx => hatomic x (List.mem_cons_of_mem _ hx)) A hA

theorem shuffleBarrierInv_not_both {A : Stage} (h : shuffleBarrierInv A) :
    ¬(OperatorKind.RandomShuffleMap ∈ A.ops ∧ OperatorKind.RandomShuffleReduce ∈ A.ops) := by
  rintro ⟨hm, hr⟩
  have := h.1 hr
  rw [this] at hm
  simp at hm

/-! ### Fusion groups -/

theorem renderGroup_compute :
    ∀ (tl : List Stage) (h1 : Stage),
      (∀ x ∈ tl, x.compute_strategy = h1.compute_strategy) →
      (tl.foldl fuseStages h1).compute_strategy = h1.compute_strategy := by
  intro tl
  induction tl with
  | nil => intro h1 _; rfl
  | cons a t ih =>
    intro h1 hall
    rw [List.foldl_cons]
    have ha : a.compute_strategy = h1.compute_strategy := hall a (by simp)
    have hrec := ih (fuseStages h1 a) ?_
    · rw [hrec, fuseStages_compute, ha]
    · intro x hx
      rw [fuseStages_compute, ha]
      exact hall x (List.mem_cons_of_mem _ hx)

theorem fuseGroupsLoop_render (flags : FusionRule) :
    ∀ (l : List Stage) (g : FusionGroup),
      (fuseGroupsLoop flags g l).map renderGroup = fuseLoop flags (renderGroup g) l := by
  intro l
  induction l with
  | nil => intro g; rfl
  | cons s t ih =>
    intro g
    unfold fuseGroupsLoop fuseLoop
    by_cases h : canFuse flags (renderGroup g) s = true
    · rw [if_pos h, if_pos h, ih]
      congr 1
      unfold renderGroup
      rw [List.foldl_append]
      rfl
    · rw [if_neg h, if_neg h, List.map_cons, ih]
      rfl

theorem fuseGroupsLoop_sameCompute (flags : FusionRule) :
    ∀ (l : List Stage) (g : FusionGroup), sameComputeGroup g →
      ∀ g' ∈ fuseGroupsLoop flags g l, sameComputeGroup g' := by
  intro l
  induction l with
  | nil =>
    intro g hg g' hg'
    simp [fuseGroupsLoop] at hg'
    subst hg'
    exact hg
  | cons s t ih =>
    intro g hg g' hg'
    unfold fuseGroupsLoop at hg'
    by_cases h : canFuse flags (renderGroup g) s = true
    · rw [if_pos h] at hg'
      refine ih _ ?_ g' hg'
      have hrc : (renderGroup g).compute_strategy = g.1.compute_strategy :=
        renderGroup_compute g.2 g.1 fun x hx => hg x (List.mem_cons_of_mem _ hx)
      have hsc : s.compute_strategy = g.1.compute_strategy := by
        have hcf := (canFuse_spec h).2.2.2.1
        rw [← hcf, hrc]
      intro x hx
      unfold groupMembers at hx
      rcases List.mem_cons.mp hx with hx | hx
      · subst hx; rfl
      · rcases List.mem_append.mp hx with hx | hx
        · exact hg x (List.mem_cons_of_mem _ hx)
        · simp at hx
          subst hx
          exact hsc
    · rw [if_neg h] at hg'
      rcases List.mem_cons.mp hg' with h' | h'
      · subst h'
        exact hg
      · refine ih _ ?_ g' h'
        intro x hx
        unfold groupMembers at hx
        simp at hx
        subst hx
        rfl

theorem optimizeGroups_render (flags : FusionRule) (l : List Stage) :
    (optimizeGroups flags l).map renderGroup = optimize flags l := by
  unfold optimizeGroups optimize
  cases (if flags.reorder_stages then reorderStages l else l) with
  | nil => rfl
  | cons s rest =>
    show (fuseGroupsLoop flags (s, []) rest).map renderGroup = fuseLoop flags s rest
    rw [fuseGroupsLoop_render]
    rfl

theorem optimizeGroups_sameCompute (flags : FusionRule) (l : List Stage) :
    ∀ g ∈ optimizeGroups flags l, sameComputeGroup g := by
  unfold optimizeGroups
  cases (if flags.reorder_stages then reorderStages l else l) with
  | nil =>
    intro g hg
    simp [fuseGroupList] at hg
  | cons s rest =>
    intro g hg
    refine fuseGroupsLoop_sameCompute flags rest (s, []) ?_ g hg
    intro x hx
    unfold groupMembers at hx
    simp at hx
    subst hx
    rfl

end RayData

/-! ## Claims -/

open RayData

/-- Claim C1: two stages' resource requests are equivalent iff for every key
the effective value is equal, with absent key, `None` and `0`/`0.0` all
treated as the same "no requirement" sentinel; in particular the empty
request is equivalent to a request of `None` cpus and to a request of `0`
cpus, but a request of `1` cpu is NOT equivalent to the empty request (an
explicit positive requirement blocks fusion, which demands equivalence);
the relation is symmetric. -/
theorem resource_request_equivalence :
    (∀ r1 r2 : ResourceRequest, resourcesEquivalent r1 r2 = true ↔
        ∀ k, effectiveValue r1 k = effectiveValue r2 k) ∧
      resourcesEquivalent [] [("num_cpus", (none : Option ℚ))] = true ∧
      resourcesEquivalent [] [("num_cpus", some (0 : ℚ))] = true ∧
      resourcesEquivalent [("num_cpus", some (1 : ℚ))] [] = false ∧
      (∀ r1 r2 : ResourceRequest,
        resourcesEquivalent r1 r2 = resourcesEquivalent r2 r1) ∧
      (∀ (flags : FusionRule) (a s : Stage), canFuse flags a s = true →
        resourcesEquivalent a.resource_request s.resource_request = true) :=
  ⟨resourcesEquivalent_iff, by decide, by decide, by decide,
    resourcesEquivalent_symm, fun _ _ _ h => (canFuse_spec h).2.2.2.2⟩

/-- Witness for C1 at the concrete pair of the empty request and the
`0`-cpus request. -/
theorem resource_request_equivalence_witness :
    effectiveValue [] "num_cpus" =
      effectiveValue [("num_cpus", some (0 : ℚ))] "num_cpus" :=
  (resource_request_equivalence.1 [] [("num_cpus", some (0 : ℚ))]).mp
    (by decide) "num_cpus"

/-- Claim C2: for every plan and every flag setting, the optimizer's output
stages are exactly the rendered fusion groups, and all input stages merged
into one group share one compute strategy — so a task-based stage adjacent
to an actor-pool-based stage is never fused with it, and the two stages are
emitted separately. -/
theorem no_fuse_across_actor_boundary :
    (∀ (flags : FusionRule) (l : List Stage),
        (optimizeGroups flags l).map renderGroup = optimize flags l) ∧
      ∀ (flags : FusionRule) (l : List Stage), ∀ g ∈ optimizeGroups flags l,
        ∀ a ∈ groupMembers g, ∀ b ∈ groupMembers g,
          a.compute_strategy = b.compute_strategy := by
  refine ⟨optimizeGroups_render, ?_⟩
  intro flags l g hg a ha b hb
  have h := optimizeGroups_sameCompute flags l g hg
  rw [h a ha, h b hb]

/-- Witness for C2 at a concrete task-based stage adjacent to an
actor-pool-based stage: each emitted group is compute-homogeneous. -/
theorem no_fuse_across_actor_boundary_witness :
    (taskStage "MapBatches(dummy_map)" .MapBatches).compute_strategy =
      (taskStage "MapBatches(dummy_map)" .MapBatches).compute_strategy :=
  no_fuse_across_actor_boundary.2 ⟨true, true, true, true⟩
    [taskStage "MapBatches(dummy_map)" .MapBatches,
     Stage.mk "MapBatches(dummy_map)" [.MapBatches] [] .actorPoolBased]
    (taskStage "MapBatches(dummy_map)" .MapBatches, []) (by decide)
    (taskStage "MapBatches(dummy_map)" .MapBatches) (by decide)
    (taskStage "MapBatches(dummy_map)" .MapBatches) (by decide)

/-- Claim C3: materializing two sibling branches below a shared lazily-read
ancestor executes the source read exactly 2 times (once per branch) and the
shared first map once per branch; below an in-memory (non-lazy) source the
source executes 0 additional times while the shared map still executes once
per branch. -/
theorem fanout_reexecution :
    (runFanout .lazyRead 2).sourceReadRuns = 2 ∧
      (runFanout .lazyRead 2).sharedMapRuns = 2 ∧
      (runFanout .inMemory 2).sourceReadRuns = 0 ∧
      (runFanout .inMemory 2).sharedMapRuns = 2 := by
  decide

/-- Claim C4: shuffle-map and shuffle-reduce are never merged into one stage,
for every plan of atomic stages and every flag setting; concretely,
`range(3) -> map_batches(f) -> map_batches(f) -> random_shuffle_each_window`
with all fuse flags on yields exactly the fused read+map+map+shuffle-map
stage followed by the separate shuffle-reduce stage. -/
theorem shuffle_barrier :
    (∀ (flags : FusionRule) (l : List Stage), atomicStages l →
        ∀ A ∈ optimize flags l,
          ¬(OperatorKind.RandomShuffleMap ∈ A.ops ∧
            OperatorKind.RandomShuffleReduce ∈ A.ops)) ∧
      (optimize ⟨true, true, true, true⟩
          [taskStage "ReadRange" .Read,
           taskStage "MapBatches(f)" .MapBatches,
           taskStage "MapBatches(f)" .MapBatches,
           taskStage "RandomShuffleMap" .RandomShuffleMap,
           taskStage "RandomShuffleReduce" .RandomShuffleReduce]).map Stage.name =
        ["ReadRange->MapBatches(f)->MapBatches(f)->RandomShuffleMap",
         "RandomShuffleReduce"] :=
  ⟨fun flags l hl A hA => shuffleBarrierInv_not_both (optimize_shuffleInv flags l hl A hA),
   by decide⟩

/-- Witness for C4 at the concrete shuffle scenario: the fused output stage
does not contain both the shuffle-map and the shuffle-reduce. -/
theorem shuffle_barrier_witness :
    ¬(OperatorKind.RandomShuffleMap ∈
        (Stage.mk "ReadRange->MapBatches(f)->MapBatches(f)->RandomShuffleMap"
          [.Read, .MapBatches, .MapBatches, .RandomShuffleMap] [] .taskBased).ops ∧
      OperatorKind.RandomShuffleReduce ∈
        (Stage.mk "ReadRange->MapBatches(f)->MapBatches(f)->RandomShuffleMap"
          [.Read, .MapBatches, .MapBatches, .RandomShuffleMap] [] .taskBased).ops) :=
  shuffle_barrier.1 ⟨true, true, true, true⟩
    [taskStage "ReadRange" .Read,
     taskStage "MapBatches(f)" .MapBatches,
     taskStage "MapBatches(f)" .MapBatches,
     taskStage "RandomShuffleMap" .RandomShuffleMap,
     taskStage "RandomShuffleReduce" .RandomShuffleReduce]
    (by decide)
    (Stage.mk "ReadRange->MapBatches(f)->MapBatches(f)->RandomShuffleMap"
      [.Read, .MapBatches, .MapBatches, .RandomShuffleMap] [] .taskBased)
    (by decide)

/-- Claim C5: for every plan whose final stage is a Write, reordering never
commutes any stage across the Write stage (Write stays last after the
reordering pass), and Write remains the last stage of the optimized
sequence. -/
theorem write_stays_last (flags : FusionRule) (xs : List Stage) (w : Stage)
    (hw : w.ops = [.Write]) :
    (reorderStages (xs ++ [w])).getLast? = some w ∧
      ∃ A, (optimize flags (xs ++ [w])).getLast? = some A ∧
        A.ops.getLast? = some .Write := by
  have hw1 : isRandomizeStage w = false := by
    unfold isRandomizeStage
    rw [hw]
    rfl
  have hw2 : orderIndependent w = false := by
    unfold orderIndependent
    rw [hw]
    rfl
  constructor
  · exact reorderGo_getLast_barrier hw1 hw2 xs []
  · unfold optimize
    have hlast :
        (if flags.reorder_stages then reorderStages (xs ++ [w]) else xs ++ [w]).getLast? =
          some w := by
      by_cases hr : flags.reorder_stages = true
      · rw [if_pos hr]
        exact reorderGo_getLast_barrier hw1 hw2 xs []
      · rw [if_neg hr]
        exact List.getLast?_concat _
    obtain ⟨t, ht⟩ := eq_append_of_getLast? hlast
    rw [ht]
    cases t with
    | nil =>
      refine ⟨w, ?_, by rw [hw]; rfl⟩
      simp [fuseStageList, fuseLoop]
    | cons s t' =>
      simp only [List.cons_append, fuseStageList]
      exact fuseLoop_last_write flags hw t' s

/-- Witness for C5 at the concrete plan
`range(100) -> randomize_block_order -> map_batches -> write`. -/
theorem write_stays_last_witness :
    (reorderStages
        ([taskStage "ReadRange" .Read,
          taskStage "RandomizeBlockOrder" .RandomizeBlockOrder,
          taskStage "MapBatches(<lambda>)" .MapBatches] ++
          [taskStage "Write" .Write])).getLast? = some (taskStage "Write" .Write) ∧
      ∃ A, (optimize ⟨true, true, true, true⟩
          ([taskStage "ReadRange" .Read,
            taskStage "RandomizeBlockOrder" .RandomizeBlockOrder,
            taskStage "MapBatches(<lambda>)" .MapBatches] ++
            [taskStage "Write" .Write])).getLast? = some A ∧
        A.ops.getLast? = some .Write :=
  write_stays_last ⟨true, true, true, true⟩
    [taskStage "ReadRange" .Read,
     taskStage "RandomizeBlockOrder" .RandomizeBlockOrder,
     taskStage "MapBatches(<lambda>)" .MapBatches]
    (taskStage "Write" .Write) rfl

/-- Claim C6: `range(10) -> randomize_block_order -> map_batches(f)` with
fuse, read-fuse and reorder enabled yields exactly the two stages
`ReadRange->MapBatches(f)` and `RandomizeBlockOrder`: the randomize stage is
commuted after the fused read+map. -/
theorem basic_fusion_reorder :
    (optimize ⟨true, true, true, true⟩
        [taskStage "ReadRange" .Read,
         taskStage "RandomizeBlockOrder" .RandomizeBlockOrder,
         taskStage "MapBatches(f)" .MapBatches]).map Stage.name =
      ["ReadRange->MapBatches(f)", "RandomizeBlockOrder"] := by
  decide

/-- Claim C7: `require_preserve_order` returns true for every plan containing
a sort or zip stage, and false for a plan ending in repartition with no sort
or zip consumer. -/
theorem require_preserve_order_spec :
    (∀ (l : List Stage) (s : Stage), s ∈ l →
        (OperatorKind.Sort ∈ s.ops ∨ OperatorKind.Zip ∈ s.ops) →
        requirePreserveOrder l = true) ∧
      ∀ (l : List Stage) (w : Stage), l.getLast? = some w → w.ops = [.Repartition] →
        (∀ s ∈ l, OperatorKind.Sort ∉ s.ops ∧ OperatorKind.Zip ∉ s.ops) →
        requirePreserveOrder l = false := by
  constructor
  · intro l s hs hk
    unfold requirePreserveOrder
    rw [List.any_eq_true]
    refine ⟨s, hs, ?_⟩
    rw [List.any_eq_true]
    rcases hk with hk | hk
    · exact ⟨_, hk, by simp⟩
    · exact ⟨_, hk, by simp⟩
  · intro l w _ _ hl
    rw [Bool.eq_false_iff]
    intro hcontra
    unfold requirePreserveOrder at hcontra
    rw [List.any_eq_true] at hcontra
    obtain ⟨s, hs, hsk⟩ := hcontra
    rw [List.any_eq_true] at hsk
    obtain ⟨k, hkmem, hkk⟩ := hsk
    simp only [Bool.or_eq_true, decide_eq_true_eq] at hkk
    rcases hkk with rfl | rfl
    · exact (hl s hs).1 hkmem
    · exact (hl s hs).2 hkmem

/-- Witness for C7 at the concrete plans of the test: a plan ending in sort
preserves order, a plan ending in repartition does not. -/
theorem require_preserve_order_spec_witness :
    requirePreserveOrder
        [taskStage "ReadRange" .Read, taskStage "MapBatches(<lambda>)" .MapBatches,
         taskStage "Sort" .Sort] = true ∧
      requirePreserveOrder
        [taskStage "ReadRange" .Read, taskStage "MapBatches(<lambda>)" .MapBatches,
         taskStage "Repartition" .Repartition] = false :=
  ⟨require_preserve_order_spec.1
      [taskStage "ReadRange" .Read, taskStage "MapBatches(<lambda>)" .MapBatches,
       taskStage "Sort" .Sort]
      (taskStage "Sort" .Sort) (by decide) (by decide),
    require_preserve_order_spec.2
      [taskStage "ReadRange" .Read, taskStage "MapBatches(<lambda>)" .MapBatches,
       taskStage "Repartition" .Repartition]
      (taskStage "Repartition" .Repartition) (by decide) rfl (by decide)⟩

/-- Claim C8: applying the optimizer to a sequence it has already produced
returns that same sequence unchanged: the optimizer is idempotent, for every
stage sequence and flag setting. -/
theorem optimize_idempotent (flags : FusionRule) (l : List Stage) :
    optimize flags (optimize flags l) = optimize flags l := by
  by_cases hr : flags.reorder_stages = true
  · have hL : optimize flags l = fuseStageList flags (reorderStages l) := by
      unfold optimize
      rw [if_pos hr]
    cases hc : reorderStages l with
    | nil =>
      rw [hL, hc]
      show optimize flags [] = fuseStageList flags []
      unfold optimize reorderStages
      rw [if_pos hr]
      rfl
    | cons s rest =>
      have hF : optimize flags l = fuseLoop flags s rest := by
        rw [hL, hc]
        rfl
      have hchainL : List.Chain' randBarrier (s :: rest) := by
        rw [← hc]
        exact reorderGo_chain l [] (by simp)
      have hchainF : List.Chain' randBarrier (fuseLoop flags s rest) :=
        fuseLoop_chain flags rest s hchainL
      have hfix : reorderStages (fuseLoop flags s rest) = fuseLoop flags s rest := by
        unfold reorderStages
        have := reorderGo_fixed (fuseLoop flags s rest) [] (by simp)
          (by simpa using hchainF)
        simpa using this
      rw [hF]
      unfold optimize
      rw [if_pos hr]
      show fuseStageList flags (reorderStages (fuseLoop flags s rest)) =
        fuseLoop flags s rest
      rw [hfix]
      exact fuseStageList_fuseLoop flags rest s
  · have hL : optimize flags l = fuseStageList flags l := by
      unfold optimize
      rw [if_neg hr]
    cases hc : l with
    | nil =>
      subst hc
      rw [hL]
      unfold optimize
      rw [if_neg hr]
      rfl
    | cons s rest =>
      subst hc
      rw [hL]
      show optimize flags (fuseLoop flags s rest) = fuseLoop flags s rest
      unfold optimize
      rw [if_neg hr]
      exact fuseStageList_fuseLoop flags rest s

/-- Claim C9: with fuse, read-fuse and reorder enabled, the plan
`range(10) -> randomize_block_order -> repartition(10) -> map_batches`
optimizes to exactly the three stages `ReadRange->RandomizeBlockOrder`,
`Repartition` and `MapBatches(dummy_map)`: the randomize stage fuses into
the read instead of moving past the repartition. -/
theorem reorder_not_past_repartition :
    (optimize ⟨true, true, true, true⟩
        [taskStage "ReadRange" .Read,
         taskStage "RandomizeBlockOrder" .RandomizeBlockOrder,
         taskStage "Repartition" .Repartition,
         taskStage "MapBatches(dummy_map)" .MapBatches]).map Stage.name =
      ["ReadRange->RandomizeBlockOrder", "Repartition", "MapBatches(dummy_map)"] := by
  decide

/-- Claim C10: every call to `Test.get_state` raises `AttributeError`: its
default expression references `TestState.GOOD`, which is not a member of the
`TestState` enum, and Python evaluates the default argument of `dict.get`
unconditionally, even when the `"state"` key is present. -/
theorem test_get_state_always_raises (self : List (String × String)) :
    RayRelease.Test.get_state self = .error .attributeError := rfl
